import Mathlib

/-!
# Verification of the hybrid retrieval and sync engine

A shallow embedding of the design-bearing core of the repository:
`scripts/hybrid_search.py` (keyword extraction and hybrid re-ranking),
`scripts/conversation_ingest.py` (entity extraction, importance estimation,
turn ingestion) and `scripts/memory_sync.py` (content hashing, markdown
section parsing, ledger-driven import, export deduplication).

Conventions of the embedding:
* Python float scores and weights are modelled as exact rationals; the
  properties verified here are order- and interval-theoretic.
* Python strings are modelled over their character lists; `str.lower`,
  `str.strip` and the regex character class `\w` are modelled over ASCII
  (all concrete inputs considered are ASCII).
* `datetime.utcnow().isoformat()` is an external clock, passed in as the
  `now` argument; file reading, `json.load` and the vector store are
  external collaborators, modelled at their call boundary.
* Python `dict` (insertion ordered) becomes an association list with
  first-match lookup; Python `set` becomes a deduplicated list (only
  membership and cardinality of these sets are ever used).
-/

/-! ## Python string primitives -/

/-- ASCII word character, the `\w` class: letter, digit or underscore. -/
def isWordChar (c : Char) : Bool :=
  let n := c.toNat
  decide ((97 ≤ n ∧ n ≤ 122) ∨ (65 ≤ n ∧ n ≤ 90) ∨ (48 ≤ n ∧ n ≤ 57) ∨ n = 95)

/-- ASCII uppercase letter or digit, the class `[A-Z0-9]`. -/
def isUpperDigit (c : Char) : Bool :=
  let n := c.toNat
  decide ((65 ≤ n ∧ n ≤ 90) ∨ (48 ≤ n ∧ n ≤ 57))

/-- ASCII lowercase letter. -/
def isLowerAlpha (c : Char) : Bool :=
  let n := c.toNat
  decide (97 ≤ n ∧ n ≤ 122)

/-- ASCII uppercase letter. -/
def isUpperAlpha (c : Char) : Bool :=
  let n := c.toNat
  decide (65 ≤ n ∧ n ≤ 90)

/-- ASCII letter. -/
def isAsciiAlpha (c : Char) : Bool := isLowerAlpha c || isUpperAlpha c

/-- ASCII hexadecimal digit, the class `[0-9A-Fa-f]`. -/
def isHexDigitB (c : Char) : Bool :=
  let n := c.toNat
  decide ((48 ≤ n ∧ n ≤ 57) ∨ (65 ≤ n ∧ n ≤ 70) ∨ (97 ≤ n ∧ n ≤ 102))

/-- ASCII whitespace as Python `str.strip` and the regex class `\s` see it. -/
def isPySpace (c : Char) : Bool :=
  let n := c.toNat
  decide (n = 32 ∨ n = 9 ∨ n = 10 ∨ n = 13 ∨ n = 11 ∨ n = 12)

/-- ASCII case folding of one character, modelling Python `str.lower`. -/
def toLowerAscii (c : Char) : Char :=
  if 65 ≤ c.toNat ∧ c.toNat ≤ 90 then Char.ofNat (c.toNat + 32) else c

/-- Python `text.lower()` over ASCII. -/
def pyLower (s : String) : String := String.mk (s.data.map toLowerAscii)

/-- `needle` is a prefix of `hay`. -/
def listStartsWith : List Char → List Char → Bool
  | [], _ => true
  | _ :: _, [] => false
  | a :: as, b :: bs => a == b && listStartsWith as bs

/-- Python `needle in hay` substring containment. -/
def listContainsSeq (needle : List Char) : List Char → Bool
  | [] => needle.isEmpty
  | c :: cs => listStartsWith needle (c :: cs) || listContainsSeq needle cs

/-- Python `s.split(sep)` for a one-character separator: keeps empty parts. -/
def pySplitAux (sep : Char) (acc : List Char) : List Char → List (List Char)
  | [] => [acc.reverse]
  | c :: cs =>
    if c == sep then acc.reverse :: pySplitAux sep [] cs
    else pySplitAux sep (c :: acc) cs

/-- The lines of a document, Python `content.split("\n")`. -/
def pyLines (s : String) : List (List Char) := pySplitAux '\n' [] s.data

/-- Python `str.strip()`: drop leading and trailing whitespace. -/
def pyStripL (l : List Char) : List Char :=
  ((l.dropWhile isPySpace).reverse.dropWhile isPySpace).reverse

/-- Python `s.strip()` on strings. -/
def pyStrip (s : String) : String := String.mk (pyStripL s.data)

/-- The maximal runs of characters satisfying `p`, in order; `acc` is the
reversed current run. `re.findall` of a word-class pattern bounded by word
boundaries returns exactly these runs. -/
def splitRuns {α : Type} (p : α → Bool) (acc : List α) : List α → List (List α)
  | [] => if acc.isEmpty then [] else [acc.reverse]
  | x :: xs =>
    if p x then splitRuns p (x :: acc) xs
    else if acc.isEmpty then splitRuns p [] xs
    else acc.reverse :: splitRuns p [] xs

/-- Pair each character with its predecessor (`first` before the head). -/
def withPrev (first : Char) : List Char → List (Char × Char)
  | [] => []
  | c :: cs => (first, c) :: withPrev c cs

/-! ## Content Identity: `memory_sync.content_hash`, md5 truncated to 12 hex
characters. The md5 computation is spelled out over byte lists so that the
hash, and everything built on it, evaluates inside the kernel. -/

/-- UTF-8 encoding of a character as byte values (ASCII bytes for ASCII). -/
def utf8BytesOfChar (c : Char) : List Nat :=
  let n := c.toNat
  if n < 128 then [n]
  else if n < 2048 then [192 + n / 64, 128 + n % 64]
  else if n < 65536 then [224 + n / 4096, 128 + (n / 64) % 64, 128 + n % 64]
  else [240 + n / 262144, 128 + (n / 4096) % 64, 128 + (n / 64) % 64, 128 + n % 64]

/-- Python `text.encode()`: the UTF-8 bytes of a string. -/
def utf8Bytes (s : String) : List Nat := s.data.flatMap utf8BytesOfChar

/-- The md5 sine-derived round constants. -/
def md5K : List Nat :=
  [0xd76aa478, 0xe8c7b756, 0x242070db, 0xc1bdceee,
   0xf57c0faf, 0x4787c62a, 0xa8304613, 0xfd469501,
   0x698098d8, 0x8b44f7af, 0xffff5bb1, 0x895cd7be,
   0x6b901122, 0xfd987193, 0xa679438e, 0x49b40821,
   0xf61e2562, 0xc040b340, 0x265e5a51, 0xe9b6c7aa,
   0xd62f105d, 0x02441453, 0xd8a1e681, 0xe7d3fbc8,
   0x21e1cde6, 0xc33707d6, 0xf4d50d87, 0x455a14ed,
   0xa9e3e905, 0xfcefa3f8, 0x676f02d9, 0x8d2a4c8a,
   0xfffa3942, 0x8771f681, 0x6d9d6122, 0xfde5380c,
   0xa4beea44, 0x4bdecfa9, 0xf6bb4b60, 0xbebfbc70,
   0x289b7ec6, 0xeaa127fa, 0xd4ef3085, 0x04881d05,
   0xd9d4d039, 0xe6db99e5, 0x1fa27cf8, 0xc4ac5665,
   0xf4292244, 0x432aff97, 0xab9423a7, 0xfc93a039,
   0x655b59c3, 0x8f0ccc92, 0xffeff47d, 0x85845dd1,
   0x6fa87e4f, 0xfe2ce6e0, 0xa3014314, 0x4e0811a1,
   0xf7537e82, 0xbd3af235, 0x2ad7d2bb, 0xeb86d391]

/-- The md5 per-round left-rotation amounts. -/
def md5S : List Nat :=
  [7, 12, 17, 22, 7, 12, 17, 22, 7, 12, 17, 22, 7, 12, 17, 22,
   5, 9, 14, 20, 5, 9, 14, 20, 5, 9, 14, 20, 5, 9, 14, 20,
   4, 11, 16, 23, 4, 11, 16, 23, 4, 11, 16, 23, 4, 11, 16, 23,
   6, 10, 15, 21, 6, 10, 15, 21, 6, 10, 15, 21, 6, 10, 15, 21]

/-- Addition modulo 2^32. -/
def add32 (a b : Nat) : Nat := (a + b) % 4294967296

/-- Bitwise complement on 32 bits. -/
def not32 (a : Nat) : Nat := 4294967295 - a % 4294967296

/-- Left rotation of a 32-bit word by `n` places. -/
def rotl32 (x n : Nat) : Nat :=
  ((x % 4294967296) * 2 ^ n) % 4294967296 + (x % 4294967296) / 2 ^ (32 - n)

/-- One md5 round on state `(a, b, c, d)` with message words `m`. -/
def md5Round (m : List Nat) (st : Nat × Nat × Nat × Nat) (i : Nat) :
    Nat × Nat × Nat × Nat :=
  let (a, b, c, d) := st
  let f :=
    if i < 16 then (b &&& c) ||| (not32 b &&& d)
    else if i < 32 then (d &&& b) ||| (not32 d &&& c)
    else if i < 48 then b ^^^ c ^^^ d
    else c ^^^ (b ||| not32 d)
  let g :=
    if i < 16 then i
    else if i < 32 then (5 * i + 1) % 16
    else if i < 48 then (3 * i + 5) % 16
    else (7 * i) % 16
  let t := add32 (add32 (add32 a f) (md5K.getD i 0)) (m.getD g 0)
  (d, add32 b (rotl32 t (md5S.getD i 0)), b, c)

/-- The 16 little-endian 32-bit words of one 64-byte chunk. -/
def md5Words (chunk : List Nat) : List Nat :=
  (List.range 16).map fun j =>
    chunk.getD (4 * j) 0 + 256 * chunk.getD (4 * j + 1) 0 +
      65536 * chunk.getD (4 * j + 2) 0 + 16777216 * chunk.getD (4 * j + 3) 0

/-- Process one 64-byte chunk. -/
def md5Chunk (st : Nat × Nat × Nat × Nat) (chunk : List Nat) :
    Nat × Nat × Nat × Nat :=
  let m := md5Words chunk
  let (a, b, c, d) := (List.range 64).foldl (md5Round m) st
  let (a0, b0, c0, d0) := st
  (add32 a0 a, add32 b0 b, add32 c0 c, add32 d0 d)

/-- Split a byte list into 64-byte chunks. The fuel bounds the number of
chunks; it is always sufficient when it is the list length, since every
step consumes 64 bytes. -/
def chunks64 (fuel : Nat) (l : List Nat) : List (List Nat) :=
  match fuel, l with
  | _, [] => []
  | 0, _ => []
  | fuel + 1, l => l.take 64 :: chunks64 fuel (l.drop 64)

/-- md5 padding: a 0x80 byte, zeros to 56 mod 64, then the bit length as 8
little-endian bytes. -/
def md5Pad (msg : List Nat) : List Nat :=
  let padlen := (119 - msg.length % 64) % 64
  msg ++ [128] ++ List.replicate padlen 0 ++
    (List.range 8).map fun i => (8 * msg.length) / 2 ^ (8 * i) % 256

/-- Lowercase hex digit. -/
def hexDigitChar (n : Nat) : Char :=
  if n < 10 then Char.ofNat (48 + n) else Char.ofNat (87 + n)

/-- Hex rendering of one 32-bit word in little-endian byte order, each byte
high nibble first, as in a hexdigest. -/
def hexWordLE (w : Nat) : List Char :=
  (List.range 4).flatMap fun i =>
    let b := w / 2 ^ (8 * i) % 256
    [hexDigitChar (b / 16), hexDigitChar (b % 16)]

/-- The md5 hexdigest of a byte list: 32 lowercase hex characters. -/
def md5HexBytes (msg : List Nat) : List Char :=
  let padded := md5Pad msg
  let (a, b, c, d) := (chunks64 padded.length padded).foldl md5Chunk
    (0x67452301, 0xefcdab89, 0x98badcfe, 0x10325476)
  hexWordLE a ++ hexWordLE b ++ hexWordLE c ++ hexWordLE d

/-- `memory_sync.content_hash`: `hashlib.md5(text.encode()).hexdigest()[:12]`. -/
def content_hash (text : String) : String :=
  String.mk ((md5HexBytes (utf8Bytes text)).take 12)

/-! ## Keyword extraction: `hybrid_search.extract_keywords`

The three `re.findall` patterns are modelled by their run characterisations:
* `\b\w+\b` over the lowercased text returns exactly the maximal runs of
  word characters;
* `\b[A-Z0-9][A-Za-z0-9_-]+\b` matches inside each maximal run of
  `[A-Za-z0-9_-]`: the match starts at the first position holding an
  uppercase letter or digit that sits at a word boundary (run start, or
  right after a hyphen), extends greedily to the end of the run, backtracks
  over trailing hyphens to end at the last word character, and counts only
  when at least 2 characters long — at most one match per run, since after
  it only hyphens remain;
* `0x[0-9A-Fa-f]+` is a plain left-to-right scan with greedy digit runs.
-/

/-- Index of the first `[A-Z0-9]` character of a `[A-Za-z0-9_-]` run that is
preceded by a word boundary (run start or a hyphen). -/
def origStartIdx : Bool → List Char → Option Nat
  | _, [] => none
  | atBoundary, c :: cs =>
    if atBoundary && isUpperDigit c then some 0
    else (origStartIdx (c == '-') cs).map (· + 1)

/-- Character of the class `[A-Za-z0-9_-]`. -/
def isIdentChar (c : Char) : Bool := isWordChar c || c == '-'

/-- The match of `\b[A-Z0-9][A-Za-z0-9_-]+\b` inside one maximal
`[A-Za-z0-9_-]` run, if any. -/
def origTokenOf (run : List Char) : List (List Char) :=
  match origStartIdx true run with
  | none => []
  | some p =>
    let e := (run.reverse.dropWhile (· == '-')).length
    if p + 2 ≤ e then [(run.drop p).take (e - p)] else []

/-- Left-to-right scan for `0x[0-9A-Fa-f]+`. The fuel bounds the number of
steps; each step consumes at least one character, so the list length is
always enough fuel. -/
def hexScanF : Nat → List Char → List (List Char)
  | 0, _ => []
  | _, [] => []
  | fuel + 1, c :: cs =>
    if c == '0' then
      match cs with
      | 'x' :: rest =>
        let digits := rest.takeWhile isHexDigitB
        if digits.isEmpty then hexScanF fuel cs
        else ('0' :: 'x' :: digits) :: hexScanF fuel (rest.dropWhile isHexDigitB)
      | _ => hexScanF fuel cs
    else hexScanF fuel cs

/-- `hybrid_search.extract_keywords`: union of lowercased word tokens,
original-case identifier-like tokens and hex literals, as a set (modelled
as a deduplicated list). -/
def extract_keywords (text : String) : List String :=
  let words := (splitRuns isWordChar [] (pyLower text).data).map String.mk
  let originals :=
    ((splitRuns isIdentChar [] text.data).flatMap origTokenOf).map String.mk
  let hexes := (hexScanF text.data.length text.data).map String.mk
  (words ++ originals ++ hexes).dedup

/-! ## Hybrid ranking: `hybrid_search.hybrid_search` -/

/-- One candidate as returned by `MemoryClient.search`. -/
structure Cand where
  score : ℚ
  content : String
  memory_type : String
  importance : ℚ
  entities : List String
  timestamp : String
deriving DecidableEq

/-- A candidate after re-scoring: the original fields plus `dense_score`,
`keyword_score` and `combined_score`. -/
structure Scored where
  cand : Cand
  dense_score : ℚ
  keyword_score : ℚ
  combined_score : ℚ
deriving DecidableEq

/-- The keyword-overlap score of one candidate content against the query
keyword set `qk`: `|qk ∩ keywords(content)| / |qk|`, and 0 when the query
has no keywords. -/
def keywordScoreOf (qk : List String) (content : String) : ℚ :=
  if qk.isEmpty then 0
  else
    let ck := extract_keywords content
    ((qk.filter fun w => decide (w ∈ ck)).length : ℚ) / (qk.length : ℚ)

/-- Score one candidate: keyword overlap and the weighted combination. -/
def score_candidate (qk : List String) (dw kw : ℚ) (r : Cand) : Scored :=
  let ks := keywordScoreOf qk r.content
  ⟨r, r.score, ks, dw * r.score + kw * ks⟩

/-- Stable insertion before the first element of not-larger key: the
insertion step of a stable descending sort. -/
def insertDescBy {α : Type} (key : α → ℚ) (x : α) : List α → List α
  | [] => [x]
  | y :: ys => if key y ≤ key x then x :: y :: ys else y :: insertDescBy key x ys

/-- Stable descending sort by `key`, modelling Python
`list.sort(key=..., reverse=True)` (Timsort is stable, and `reverse=True`
does not reverse ties). -/
def sortDescBy {α : Type} (key : α → ℚ) : List α → List α
  | [] => []
  | x :: xs => insertDescBy key x (sortDescBy key xs)

/-- `hybrid_search.hybrid_search` after the store returned `dense_results`:
re-score every candidate, sort descending by combined score (stably) and
truncate to `limit`. -/
def hybrid_search (query : String) (dense_results : List Cand) (limit : Nat)
    (dense_weight keyword_weight : ℚ) : List Scored :=
  let qk := extract_keywords query
  let scored := dense_results.map (score_candidate qk dense_weight keyword_weight)
  (sortDescBy (fun s => s.combined_score) scored).take limit

/-! ## Conversation ingestion: `conversation_ingest` -/

/-- `re.findall` of the `@(\w+)` mentions: the maximal word runs whose
preceding character is `@`. -/
def mentionTokens (cs : List Char) : List String :=
  ((splitRuns (fun x : Char × Char => isWordChar x.2) [] (withPrev (Char.ofNat 0) cs)).filter
    fun run =>
      match run.head? with
      | some x => x.1 == '@'
      | none => false).map
    fun run => String.mk (run.map (·.2))

/-- Left-to-right scan for `https?://([^\s/]+)`, returning the captured host
parts. Fuel as in `hexScanF`. -/
def domainScanF : Nat → List Char → List String
  | 0, _ => []
  | _, [] => []
  | fuel + 1, c :: cs =>
    let l := c :: cs
    if listStartsWith "https://".data l then
      let rest := l.drop 8
      let host := rest.takeWhile fun c => !(isPySpace c || c == '/')
      if host.isEmpty then domainScanF fuel cs
      else String.mk host :: domainScanF fuel (rest.dropWhile fun c => !(isPySpace c || c == '/'))
    else if listStartsWith "http://".data l then
      let rest := l.drop 7
      let host := rest.takeWhile fun c => !(isPySpace c || c == '/')
      if host.isEmpty then domainScanF fuel cs
      else String.mk host :: domainScanF fuel (rest.dropWhile fun c => !(isPySpace c || c == '/'))
    else domainScanF fuel cs

/-- Full match of `[a-z]+_[a-z_]+` against a complete word run: all
characters lowercase or underscore, a lowercase head, and an underscore no
later than the second-to-last position. -/
def snakeCaseB (run : List Char) : Bool :=
  run.all (fun c => isLowerAlpha c || c == '_') &&
  (match run with | c :: _ => isLowerAlpha c | [] => false) &&
  run.dropLast.contains '_'

/-- Full match of `[A-Z][a-z]+[A-Z][a-zA-Z]*` against a complete word run:
all letters, uppercase head, lowercase second character, and a later
uppercase character. -/
def camelCaseB (run : List Char) : Bool :=
  match run with
  | c1 :: c2 :: rest =>
    isUpperAlpha c1 && isLowerAlpha c2 && (c2 :: rest).all isAsciiAlpha &&
      rest.any isUpperAlpha
  | _ => false

/-- `re.findall` of `\b([a-z]+_[a-z_]+|[A-Z][a-z]+[A-Z][a-zA-Z]*)\b`: both
alternatives consume only word characters and are bounded by word
boundaries, so each match covers one full maximal word run. -/
def codeTermTokens (cs : List Char) : List String :=
  ((splitRuns isWordChar [] cs).filter fun run => snakeCaseB run || camelCaseB run).map
    String.mk

/-- The fixed keyword vocabulary of `conversation_ingest.extract_entities`. -/
def entityKeywords : List String :=
  ["coolify", "docker", "github", "memory", "skill", "ollama", "qdrant"]

/-- `conversation_ingest.extract_entities`: mentions, URL domains, up to 5
code-like terms and matched fixed keywords, deduplicated as a set and
capped at 10. -/
def extract_entities (text : String) : List String :=
  let cs := text.data
  let mentions := mentionTokens cs
  let domains := domainScanF cs.length cs
  let code_terms := (codeTermTokens cs).take 5
  let kws := entityKeywords.filter fun kw =>
    listContainsSeq kw.data (pyLower text).data
  ((mentions ++ domains ++ code_terms ++ kws).dedup).take 10

/-- The preference vocabulary of `conversation_ingest.calculate_importance`. -/
def prefWords : List String := ["prefer", "want", "need", "important", "remember"]

/-- The assistant action vocabulary of
`conversation_ingest.calculate_importance`. -/
def actionWords : List String := ["created", "installed", "configured", "deployed"]

/-- `conversation_ingest.calculate_importance`: base 0.5, +0.1 for role
"user" with a further +0.2 on preference vocabulary, +0.15 for role
"assistant" with action vocabulary, +0.1 for length over 200, capped at 1. -/
def calculate_importance (text role : String) : ℚ :=
  let lowered := (pyLower text).data
  let i0 : ℚ := 1 / 2
  let i1 :=
    if role = "user" then
      let iu := i0 + 1 / 10
      if prefWords.any (fun w => listContainsSeq w.data lowered) then iu + 1 / 5
      else iu
    else i0
  let i2 :=
    if role = "assistant" ∧
        actionWords.any (fun w => listContainsSeq w.data lowered) then
      i1 + 3 / 20
    else i1
  let i3 := if 200 < text.length then i2 + 1 / 10 else i2
  min i3 1

/-- One episodic record as `conversation_ingest.ingest_turn` stores it. -/
structure IngestRecord where
  content : String
  memory_type : String
  importance : ℚ
  entities : List String
  session_id : Option String
  role : String
  ingested_at : String
deriving DecidableEq

/-- `conversation_ingest.ingest_turn`: reject content shorter than 20
characters with no store call (`none`), otherwise build and store one
episodic record. -/
def ingest_turn (content role : String) (session_id : Option String)
    (now : String) : Option IngestRecord :=
  if content.length < 20 then none
  else
    some
      { content := "[" ++ role ++ "] " ++ content
        memory_type := "episodic"
        importance := calculate_importance content role
        entities := extract_entities content
        session_id := session_id
        role := role
        ingested_at := now }

/-! ## Sync engine: `memory_sync` -/

/-- One parsed document section: header token and accumulated body. -/
structure Sectn where
  header : String
  content : String
deriving DecidableEq

/-- One sync-ledger value: `(header, synced_at)`. -/
structure LedgerEntry where
  header : String
  synced_at : String
deriving DecidableEq

/-- The sync ledger: a content hash keyed, insertion-ordered mapping. -/
abbrev Ledger := List (String × LedgerEntry)

/-- First-match lookup in the ledger. -/
def lookupKey : Ledger → String → Option LedgerEntry
  | [], _ => none
  | (k', v) :: t, k => if k' = k then some v else lookupKey t k

/-- The section-parsing loop of `memory_sync.sync_from_markdown`: a `## `
line closes the current section (kept only when its stripped body is
nonempty) and opens a new one with a stripped header; a `# ` title line is
skipped; every other line is accumulated with its newline. -/
def parseGo : List (List Char) → List Char → List Char → List Sectn
  | [], hd, acc =>
    if (pyStripL acc).isEmpty then [] else [⟨String.mk hd, String.mk acc⟩]
  | ln :: rest, hd, acc =>
    if listStartsWith ['#', '#', ' '] ln then
      (if (pyStripL acc).isEmpty then [] else [⟨String.mk hd, String.mk acc⟩]) ++
        parseGo rest (pyStripL (ln.drop 3)) []
    else if listStartsWith ['#', ' '] ln then parseGo rest hd acc
    else parseGo rest hd (acc ++ ln ++ ['\n'])

/-- Parse a document into sections. -/
def parse_sections (doc : String) : List Sectn := parseGo (pyLines doc) [] []

/-- `header.lower().replace(" ", "-")`. -/
def hyphenLower (h : String) : String :=
  String.mk ((h.data.map toLowerAscii).map fun c => if c = ' ' then '-' else c)

/-- One record as the importer stores it via `MemoryClient.store`. -/
structure StoredRecord where
  content : String
  memory_type : String
  importance : ℚ
  entities : List String
  source : String
  synced_at : String
deriving DecidableEq

/-- The record the importer stores for a section with stripped body `text`. -/
def mkStoredRecord (header text src now : String) : StoredRecord :=
  { content := if header ≠ "" then header ++ ": " ++ text else text
    memory_type := "semantic"
    importance := 7 / 10
    entities := if header ≠ "" then [hyphenLower header] else []
    source := src
    synced_at := now }

/-- The import loop state: ledger, records stored so far and counters. -/
structure SyncAcc where
  ledger : Ledger
  stored : List StoredRecord
  newCount : Nat
  skippedCount : Nat
deriving DecidableEq

/-- One iteration of the import loop of `memory_sync.sync_from_markdown`:
drop stripped bodies shorter than 30 characters; skip hashes already in the
ledger; otherwise store one record and append the ledger entry. -/
def stepImport (src now : String) (st : SyncAcc) (sec : Sectn) : SyncAcc :=
  let text := pyStrip sec.content
  if text.length < 30 then st
  else
    let h := content_hash text
    match lookupKey st.ledger h with
    | some _ => { st with skippedCount := st.skippedCount + 1 }
    | none =>
      { ledger := st.ledger ++ [(h, ⟨sec.header, now⟩)]
        stored := st.stored ++ [mkStoredRecord sec.header text src now]
        newCount := st.newCount + 1
        skippedCount := st.skippedCount }

/-- The returned stats dict of `sync_from_markdown`. -/
structure SyncStats where
  new : Nat
  skipped : Nat
  updated : Nat
deriving DecidableEq

/-- The visible outcome of one import run: stats, records stored, and the
ledger written back (`none` when no state path was given). -/
structure SyncOut where
  stats : SyncStats
  stored : List StoredRecord
  writtenLedger : Option Ledger
deriving DecidableEq

/-- The whole import pass over a parsed document, starting from `initLedger`. -/
def runImport (doc : String) (hasStatePath : Bool) (initLedger : Ledger)
    (src now : String) : SyncOut :=
  let fin := (parse_sections doc).foldl (stepImport src now) ⟨initLedger, [], 0, 0⟩
  { stats := ⟨fin.newCount, fin.skippedCount, 0⟩
    stored := fin.stored
    writtenLedger := if hasStatePath then some fin.ledger else none }

/-- How the sync state arrives at `sync_from_markdown`: no path given, a
path whose file does not exist, or an existing file on which `json.load`
either produced a ledger or raised. -/
inductive LedgerSource where
  | noPath : LedgerSource
  | fileMissing : LedgerSource
  | fileLoaded : Except String Ledger → LedgerSource

/-- `memory_sync.sync_from_markdown`: a missing path or file starts from an
empty ledger; a `json.load` failure propagates (the code has no handler
around it); the final ledger is written back exactly when a path was
given. -/
def sync_from_markdown (doc : String) (state : LedgerSource) (src now : String) :
    Except String SyncOut :=
  match state with
  | .noPath => .ok (runImport doc false [] src now)
  | .fileMissing => .ok (runImport doc true [] src now)
  | .fileLoaded (.ok l) => .ok (runImport doc true l src now)
  | .fileLoaded (.error e) => .error e

/-- The stripped bodies of the qualifying (length at least 30) sections. -/
def qualTexts (secs : List Sectn) : List String :=
  (secs.map fun s => pyStrip s.content).filter fun t => decide (30 ≤ t.length)

/-- How many qualifying sections a document has. -/
def qualifyingCount (doc : String) : Nat := (qualTexts (parse_sections doc)).length

/-! ## Export deduplication: `memory_sync.export_to_markdown` -/

/-- One record as read back from the store for export. -/
structure Mem where
  content : String
  memory_type : String
  importance : ℚ
  entities : List String
deriving DecidableEq

/-- The export dedup loop: keep a record when its content hash is unseen,
extending the seen set. -/
def exportDedup : List String → List Mem → List String × List Mem
  | seen, [] => (seen, [])
  | seen, m :: ms =>
    let h := content_hash m.content
    if h ∈ seen then exportDedup seen ms
    else
      let r := exportDedup (seen ++ [h]) ms
      (r.1, m :: r.2)

/-- `export_to_markdown`, dedup stage: the semantic result set is processed
first, then the episodic set (its entries filtered to
`memory_type == "episodic"`) against the already-seen hashes; each kept
record is rendered as exactly one bullet line of its group. -/
def export_organize (semantic episodic : List Mem) : List Mem × List Mem :=
  let r1 := exportDedup [] semantic
  let r2 := exportDedup r1.1 (episodic.filter fun m => m.memory_type == "episodic")
  (r1.2, r2.2)

/-! ## Concrete inputs used by the witness theorems -/

/-- A small markdown document with a title line and two qualifying
sections. -/
def docA : String :=
  "# Title\n## Alpha\nThis is a section body long enough to pass thirty.\n## Beta\nAnother section body that is also long enough here.\n"

/-- A document whose two qualifying sections carry the same body, hence the
same Content Identity. -/
def docDup : String :=
  "## A\nexactly the same body padded to thirty chars.\n## B\nexactly the same body padded to thirty chars.\n"

/-- A plausible message of a `json.load` failure on a corrupted ledger. -/
def corruptMsg : String := "Expecting value: line 1 column 1 (char 0)"

/-- Two candidates as the store would rank them, descending dense score. -/
def candsA : List Cand :=
  [⟨9 / 10, "unrelated text", "semantic", 7 / 10, [], ""⟩,
   ⟨6 / 10, "dark mode dashboard", "semantic", 7 / 10, [], ""⟩]

/-! ## Lemmas about the stable descending sort -/

theorem insertDescBy_perm {α : Type} (key : α → ℚ) (x : α) (l : List α) :
    (insertDescBy key x l).Perm (x :: l) := by
  induction l with
  | nil => exact List.Perm.refl _
  | cons y ys ih =>
    rw [insertDescBy]
    split
    · exact List.Perm.refl _
    · exact (ih.cons y).trans (List.Perm.swap x y ys)

theorem sortDescBy_perm {α : Type} (key : α → ℚ) (l : List α) :
    (sortDescBy key l).Perm l := by
  induction l with
  | nil => exact List.Perm.refl _
  | cons x xs ih => exact (insertDescBy_perm key x _).trans (ih.cons x)

theorem mem_insertDescBy {α : Type} (key : α → ℚ) (x z : α) (l : List α) :
    z ∈ insertDescBy key x l ↔ z = x ∨ z ∈ l := by
  rw [(insertDescBy_perm key x l).mem_iff, List.mem_cons]

theorem insertDescBy_pairwise {α : Type} (key : α → ℚ) (L : α → α → Prop)
    (x : α) (l : List α)
    (hl : l.Pairwise fun a b => key b < key a ∨ (key a = key b ∧ L a b))
    (hx : ∀ y ∈ l, L x y) :
    (insertDescBy key x l).Pairwise
      fun a b => key b < key a ∨ (key a = key b ∧ L a b) := by
  induction l with
  | nil => simp [insertDescBy]
  | cons y ys ih =>
    rw [insertDescBy]
    rcases List.pairwise_cons.mp hl with ⟨hy, hys⟩
    split
    case isTrue hle =>
      refine List.pairwise_cons.mpr ⟨?_, hl⟩
      intro z hz
      rcases List.mem_cons.mp hz with rfl | hz
      · rcases lt_or_eq_of_le hle with hlt | heq
        · exact Or.inl hlt
        · exact Or.inr ⟨heq.symm, hx z (List.mem_cons_self _ _)⟩
      · rcases hy z hz with hlt | ⟨heq, _⟩
        · exact Or.inl (lt_of_lt_of_le hlt hle)
        · rcases lt_or_eq_of_le hle with hlt' | heq'
          · exact Or.inl (heq ▸ hlt')
          · exact Or.inr ⟨heq'.symm.trans heq, hx z (List.mem_cons_of_mem _ hz)⟩
    case isFalse hgt =>
      refine List.pairwise_cons.mpr ⟨?_, ih hys fun z hz => hx z (List.mem_cons_of_mem _ hz)⟩
      intro z hz
      rcases (mem_insertDescBy key x z ys).mp hz with rfl | hz
      · exact Or.inl (lt_of_not_le hgt)
      · exact hy z hz

theorem sortDescBy_pairwise {α : Type} (key : α → ℚ) (L : α → α → Prop)
    (l : List α) (hl : l.Pairwise L) :
    (sortDescBy key l).Pairwise
      fun a b => key b < key a ∨ (key a = key b ∧ L a b) := by
  induction l with
  | nil => simp [sortDescBy]
  | cons x xs ih =>
    rcases List.pairwise_cons.mp hl with ⟨hx, hxs⟩
    rw [sortDescBy]
    exact insertDescBy_pairwise key L x _ (ih hxs)
      fun y hy => hx y ((sortDescBy_perm key xs).mem_iff.mp hy)

theorem sortDescBy_sorted {α : Type} (key : α → ℚ) (l : List α) :
    (sortDescBy key l).Pairwise fun a b => key b ≤ key a := by
  have htriv : l.Pairwise fun _ _ => True := by
    induction l with
    | nil => exact List.Pairwise.nil
    | cons x xs ih => exact List.pairwise_cons.mpr ⟨fun _ _ => trivial, ih⟩
  exact (sortDescBy_pairwise key (fun _ _ => True) l htriv).imp
    fun h => h.elim le_of_lt fun ⟨he, _⟩ => le_of_eq he.symm

theorem insertDescBy_filter_tie {α : Type} (key : α → ℚ) (p : α → Bool)
    (q : ℚ) (hp : ∀ a, p a = true → key a = q) (x : α) (l : List α) :
    (insertDescBy key x l).filter p =
      if p x then x :: l.filter p else l.filter p := by
  induction l with
  | nil => simp [insertDescBy, List.filter_cons]
  | cons y ys ih =>
    rw [insertDescBy]
    split
    case isTrue hle => simp [List.filter_cons]
    case isFalse hgt =>
      rw [List.filter_cons, List.filter_cons, ih]
      by_cases hpy : p y = true
      · by_cases hpx : p x = true
        · have hlt : key x < key y := lt_of_not_le hgt
          rw [hp x hpx, hp y hpy] at hlt
          exact absurd hlt (lt_irrefl q)
        · simp [hpy, hpx]
      · by_cases hpx : p x = true
        · simp [hpy, hpx]
        · simp [hpy, hpx]

theorem sortDescBy_filter_tie {α : Type} (key : α → ℚ) (p : α → Bool)
    (q : ℚ) (hp : ∀ a, p a = true → key a = q) (l : List α) :
    (sortDescBy key l).filter p = l.filter p := by
  induction l with
  | nil => rfl
  | cons x xs ih =>
    rw [sortDescBy, insertDescBy_filter_tie key p q hp, ih, List.filter_cons]

/-! ## Claim theorems: hybrid ranking -/

/-- C3: hybrid_search returns the candidates sorted descending by
combinedScore = denseWeight * denseScore + keywordWeight * keywordScore,
with ties broken by descending denseScore when the store returned the
candidates ranked descending by dense score, original order preserved among
exact combined-score ties (the filter to any tie class is a subsequence of
the scored input), truncated to at most limit; when fewer than limit
candidates arrive, all of them are returned ranked, with no padding and no
error. -/
theorem hybrid_search_ranking (query : String) (cands : List Cand)
    (limit : Nat) (dw kw : ℚ)
    (hsorted : cands.Pairwise fun a b => b.score ≤ a.score) :
    (∀ s ∈ hybrid_search query cands limit dw kw,
      s.combined_score = dw * s.dense_score + kw * s.keyword_score) ∧
    (hybrid_search query cands limit dw kw).length = min limit cands.length ∧
    (hybrid_search query cands limit dw kw).Pairwise
      (fun a b => b.combined_score ≤ a.combined_score) ∧
    (hybrid_search query cands limit dw kw).Pairwise
      (fun a b => b.combined_score < a.combined_score ∨
        (a.combined_score = b.combined_score ∧ b.dense_score ≤ a.dense_score)) ∧
    (∀ q : ℚ,
      List.Sublist
        ((hybrid_search query cands limit dw kw).filter
          fun s => decide (s.combined_score = q))
        ((cands.map (score_candidate (extract_keywords query) dw kw)).filter
          fun s => decide (s.combined_score = q))) ∧
    (cands.length ≤ limit →
      (hybrid_search query cands limit dw kw).Perm
        (cands.map (score_candidate (extract_keywords query) dw kw))) := by
  have hdef : hybrid_search query cands limit dw kw =
      (sortDescBy (fun s => s.combined_score)
        (cands.map (score_candidate (extract_keywords query) dw kw))).take limit := rfl
  set scored := cands.map (score_candidate (extract_keywords query) dw kw) with hscored
  set sorted := sortDescBy (fun s : Scored => s.combined_score) scored with hsorted'
  have hsub : (sorted.take limit).Sublist sorted := List.take_sublist limit sorted
  have hperm : sorted.Perm scored := sortDescBy_perm _ scored
  refine ⟨?_, ?_, ?_, ?_, ?_, ?_⟩
  · intro s hs
    rw [hdef] at hs
    have hmem : s ∈ scored := hperm.mem_iff.mp (hsub.subset hs)
    rcases List.mem_map.mp hmem with ⟨r, _, rfl⟩
    rfl
  · rw [hdef, List.length_take, hperm.length_eq, List.length_map]
  · exact (sortDescBy_sorted _ scored).sublist (hdef ▸ hsub)
  · have hL : scored.Pairwise fun a b => b.dense_score ≤ a.dense_score := by
      rw [hscored, List.pairwise_map]
      exact hsorted
    exact ((sortDescBy_pairwise _ _ scored hL).sublist (hdef ▸ hsub))
  · intro q
    rw [hdef]
    have h1 := (List.take_sublist limit sorted).filter
      fun s : Scored => decide (s.combined_score = q)
    rw [sortDescBy_filter_tie (fun s : Scored => s.combined_score)
      (fun s => decide (s.combined_score = q)) q (fun a ha => of_decide_eq_true ha)
      scored] at h1
    exact h1
  · intro hle
    rw [hdef, List.take_of_length_le]
    · exact hperm
    · rw [hperm.length_eq, List.length_map]
      exact hle

/-- C4: the keyword-overlap score a candidate gets against a query lies in
the interval 0 to 1, and is 0 whenever the query yields an empty keyword
set. -/
theorem keyword_score_bounds (query content : String) :
    0 ≤ keywordScoreOf (extract_keywords query) content ∧
    keywordScoreOf (extract_keywords query) content ≤ 1 ∧
    (extract_keywords query = [] →
      keywordScoreOf (extract_keywords query) content = 0) := by
  set qk := extract_keywords query with hqk
  refine ⟨?_, ?_, ?_⟩
  · rw [keywordScoreOf]
    split
    · exact le_refl 0
    · positivity
  · rw [keywordScoreOf]
    split
    · exact zero_le_one
    case isFalse hne =>
      have hpos : 0 < (qk.length : ℚ) := by
        have : qk ≠ [] := fun h => hne (by rw [h]; rfl)
        have : 0 < qk.length := List.length_pos.mpr this
        exact_mod_cast this
      rw [div_le_one hpos]
      exact_mod_cast List.length_filter_le _ qk
  · intro h
    rw [keywordScoreOf, h]
    rfl

/-- C5: the importance estimator always returns a value between 0.5 and
1.0: base 0.5, non-negative increments (0.1 for role user, a further 0.2
for the preference vocabulary, 0.15 for assistant action words, 0.1 for
length over 200), capped at 1. -/
theorem calculate_importance_bounds (text role : String) :
    1 / 2 ≤ calculate_importance text role ∧ calculate_importance text role ≤ 1 := by
  rw [calculate_importance]
  split_ifs <;> exact ⟨le_min (by norm_num) (by norm_num), min_le_right _ _⟩

/-! ## Claim theorems: conversation ingestion -/

theorem extract_entities_le_ten (text : String) :
    (extract_entities text).length ≤ 10 := by
  rw [extract_entities]
  calc (((mentionTokens text.data ++ domainScanF text.data.length text.data ++
        (codeTermTokens text.data).take 5 ++
        entityKeywords.filter fun kw =>
          listContainsSeq kw.data (pyLower text).data).dedup).take 10).length
      ≤ 10 := by rw [List.length_take]; exact min_le_left _ _

/-- C8: ingest_turn returns null and stores nothing for content shorter
than 20 characters; for content of length at least 20 it creates exactly
one record whose entity list comes from extract_entities and has at most 10
entries. -/
theorem ingest_turn_gate (content role : String) (sid : Option String)
    (now : String) :
    (content.length < 20 → ingest_turn content role sid now = none) ∧
    (20 ≤ content.length →
      ∃ r, ingest_turn content role sid now = some r ∧
        r.entities = extract_entities content ∧ r.entities.length ≤ 10) := by
  constructor
  · intro h
    rw [ingest_turn, if_pos h]
  · intro h
    rw [ingest_turn, if_neg (by omega)]
    exact ⟨_, rfl, rfl, extract_entities_le_ten content⟩

/-! ## Lemmas about the import loop -/

theorem lookupKey_append_some (l m : Ledger) (k : String) (v : LedgerEntry)
    (h : lookupKey l k = some v) : lookupKey (l ++ m) k = some v := by
  induction l with
  | nil => exact absurd h (by simp [lookupKey])
  | cons e t ih =>
    obtain ⟨k', v'⟩ := e
    rw [List.cons_append, lookupKey]
    rw [lookupKey] at h
    split at h <;> rename_i hk
    · rw [if_pos hk]; exact h
    · rw [if_neg hk]; exact ih h

theorem lookupKey_append_none (l m : Ledger) (k : String)
    (h : lookupKey l k = none) : lookupKey (l ++ m) k = lookupKey m k := by
  induction l with
  | nil => rfl
  | cons e t ih =>
    obtain ⟨k', v'⟩ := e
    rw [List.cons_append, lookupKey]
    rw [lookupKey] at h
    split at h <;> rename_i hk
    · exact absurd h (by simp)
    · rw [if_neg hk]; exact ih h

theorem stepImport_ledger_mono (src now : String) (st : SyncAcc) (sec : Sectn)
    (k : String) (h : (lookupKey st.ledger k).isSome) :
    (lookupKey (stepImport src now st sec).ledger k).isSome := by
  simp only [stepImport]
  split
  · exact h
  · split
    · exact h
    · obtain ⟨v, hv⟩ := Option.isSome_iff_exists.mp h
      simp only
      rw [lookupKey_append_some _ _ _ _ hv]
      rfl

theorem foldl_ledger_mono (src now : String) (secs : List Sectn) (st : SyncAcc)
    (k : String) (h : (lookupKey st.ledger k).isSome) :
    (lookupKey (secs.foldl (stepImport src now) st).ledger k).isSome := by
  induction secs generalizing st with
  | nil => exact h
  | cons s t ih =>
    rw [List.foldl_cons]
    exact ih _ (stepImport_ledger_mono src now st s k h)

theorem foldl_ledger_covers (src now : String) (secs : List Sectn) (st : SyncAcc) :
    ∀ sec ∈ secs, 30 ≤ (pyStrip sec.content).length →
      (lookupKey (secs.foldl (stepImport src now) st).ledger
        (content_hash (pyStrip sec.content))).isSome := by
  induction secs generalizing st with
  | nil => intro sec h; exact absurd h (List.not_mem_nil sec)
  | cons s t ih =>
    intro sec hmem hq
    rcases List.mem_cons.mp hmem with rfl | hmem'
    · rw [List.foldl_cons]
      refine foldl_ledger_mono src now t _ _ ?_
      simp only [stepImport,
        if_neg (show ¬(pyStrip sec.content).length < 30 by omega)]
      split <;> rename_i v hlook
      · rw [hlook]; rfl
      · simp only
        rw [lookupKey_append_none _ _ _ hlook, lookupKey, if_pos rfl]
        rfl
    · rw [List.foldl_cons]
      exact ih _ sec hmem' hq

theorem qualTexts_cons_qual (s : Sectn) (t : List Sectn)
    (h : 30 ≤ (pyStrip s.content).length) :
    qualTexts (s :: t) = pyStrip s.content :: qualTexts t := by
  rw [qualTexts, List.map_cons, List.filter_cons, if_pos (by simpa using h)]
  rfl

theorem qualTexts_cons_short (s : Sectn) (t : List Sectn)
    (h : (pyStrip s.content).length < 30) :
    qualTexts (s :: t) = qualTexts t := by
  rw [qualTexts, List.map_cons, List.filter_cons, if_neg (by simpa using by omega)]
  rfl

theorem foldl_all_present (src now : String) (secs : List Sectn) (st : SyncAcc)
    (h : ∀ sec ∈ secs, 30 ≤ (pyStrip sec.content).length →
      (lookupKey st.ledger (content_hash (pyStrip sec.content))).isSome) :
    secs.foldl (stepImport src now) st =
      { st with skippedCount := st.skippedCount + (qualTexts secs).length } := by
  induction secs generalizing st with
  | nil =>
    cases st
    simp [qualTexts]
  | cons s t ih =>
    rw [List.foldl_cons]
    by_cases hq : (pyStrip s.content).length < 30
    · rw [stepImport, if_pos hq, qualTexts_cons_short s t hq]
      exact ih st fun sec hm hqq => h sec (List.mem_cons_of_mem s hm) hqq
    · have hq' : 30 ≤ (pyStrip s.content).length := by omega
      have hsome := h s (List.mem_cons_self s t) hq'
      obtain ⟨v, hv⟩ := Option.isSome_iff_exists.mp hsome
      simp only [stepImport, if_neg hq, hv]
      have hstep := ih { st with skippedCount := st.skippedCount + 1 }
        (fun sec hm hqq => h sec (List.mem_cons_of_mem s hm) hqq)
      rw [hstep, qualTexts_cons_qual s t hq']
      cases st
      simp only [SyncAcc.mk.injEq, List.length_cons]
      exact ⟨trivial, trivial, trivial, by omega⟩

/-! ## Claim theorems: import -/

/-- C1: importing the same document a second time against the ledger
persisted by a first run reports newCount 0, counts every qualifying
section as skipped, stores no record, and writes back the ledger
unchanged. -/
theorem import_idempotent (doc : String) (L0 : Ledger) (src now1 now2 : String)
    (out1 out2 : SyncOut)
    (h1 : sync_from_markdown doc (.fileLoaded (.ok L0)) src now1 = .ok out1)
    (h2 : sync_from_markdown doc
      (.fileLoaded (.ok (out1.writtenLedger.getD []))) src now2 = .ok out2) :
    out2.stats.new = 0 ∧ out2.stats.skipped = qualifyingCount doc ∧
    out2.stored = [] ∧ out2.writtenLedger = out1.writtenLedger := by
  have e1 : Except.ok (ε := String) (runImport doc true L0 src now1) =
      Except.ok out1 := h1
  have o1 : out1 = runImport doc true L0 src now1 := (Except.ok.inj e1).symm
  subst o1
  have e2 : Except.ok (ε := String)
      (runImport doc true
        ((parse_sections doc).foldl (stepImport src now1) ⟨L0, [], 0, 0⟩).ledger
        src now2) = Except.ok out2 := h2
  have o2 : out2 = runImport doc true
      ((parse_sections doc).foldl (stepImport src now1) ⟨L0, [], 0, 0⟩).ledger
      src now2 := (Except.ok.inj e2).symm
  subst o2
  have hcov := foldl_ledger_covers src now1 (parse_sections doc) ⟨L0, [], 0, 0⟩
  have hall := foldl_all_present src now2 (parse_sections doc)
    ⟨((parse_sections doc).foldl (stepImport src now1) ⟨L0, [], 0, 0⟩).ledger,
      [], 0, 0⟩ (fun sec hm hq => hcov sec hm hq)
  simp only [runImport, hall]
  simp [qualifyingCount]

/-- C2 (amended): a missing ledger file, or no state path, behaves exactly
like loading an empty ledger (fresh-start), but when the file exists and
json.load fails, the error propagates to the caller. -/
theorem sync_ledger_load_semantics (doc src now e : String) :
    sync_from_markdown doc .fileMissing src now =
      sync_from_markdown doc (.fileLoaded (.ok [])) src now ∧
    sync_from_markdown doc (.fileLoaded (.error e)) src now =
      .error e := ⟨rfl, rfl⟩

/-- C2 counterexample: with an existing but unparsable ledger file,
the import surfaces the json error instead of proceeding with an
empty ledger. -/
theorem sync_corrupt_ledger_errors :
    sync_from_markdown "## A\nsome body text\n" (.fileLoaded (.error corruptMsg))
      "MEMORY.md" "t" = .error corruptMsg := rfl

/-- C6: a section whose stripped body is shorter than 30 characters leaves
the import state untouched (no record, no counter); a qualifying section
whose hash is absent from the ledger stores exactly one record with
memory type semantic, importance 0.7 and the hyphenated lower-case header
as its only entity when a header exists (else no entities), adds the
ledger entry and increments newCount. -/
theorem import_section_classification (src now : String) (st : SyncAcc)
    (sec : Sectn) :
    ((pyStrip sec.content).length < 30 → stepImport src now st sec = st) ∧
    (30 ≤ (pyStrip sec.content).length →
      lookupKey st.ledger (content_hash (pyStrip sec.content)) = none →
      stepImport src now st sec =
        { ledger := st.ledger ++
            [(content_hash (pyStrip sec.content), ⟨sec.header, now⟩)]
          stored := st.stored ++
            [mkStoredRecord sec.header (pyStrip sec.content) src now]
          newCount := st.newCount + 1
          skippedCount := st.skippedCount } ∧
      (mkStoredRecord sec.header (pyStrip sec.content) src now).memory_type =
        "semantic" ∧
      (mkStoredRecord sec.header (pyStrip sec.content) src now).importance =
        7 / 10 ∧
      (mkStoredRecord sec.header (pyStrip sec.content) src now).entities =
        (if sec.header ≠ "" then [hyphenLower sec.header] else []) ∧
      (mkStoredRecord sec.header (pyStrip sec.content) src now).content =
        (if sec.header ≠ "" then sec.header ++ ": " ++ pyStrip sec.content
         else pyStrip sec.content)) := by
  constructor
  · intro h
    simp only [stepImport, if_pos h]
  · intro hq hnone
    refine ⟨?_, rfl, rfl, rfl, rfl⟩
    simp only [stepImport, if_neg (show ¬(pyStrip sec.content).length < 30 by omega),
      hnone]

theorem foldl_fresh (src now : String) (secs : List Sectn) (st : SyncAcc)
    (hnd : ((qualTexts secs).map content_hash).Nodup)
    (hfresh : ∀ t ∈ qualTexts secs, lookupKey st.ledger (content_hash t) = none) :
    (secs.foldl (stepImport src now) st).newCount =
      st.newCount + (qualTexts secs).length ∧
    (secs.foldl (stepImport src now) st).skippedCount = st.skippedCount ∧
    (secs.foldl (stepImport src now) st).stored.length =
      st.stored.length + (qualTexts secs).length := by
  induction secs generalizing st with
  | nil => exact ⟨rfl, rfl, rfl⟩
  | cons s t ih =>
    rw [List.foldl_cons]
    by_cases hq : (pyStrip s.content).length < 30
    · rw [qualTexts_cons_short s t hq] at hnd hfresh ⊢
      have := ih st hnd hfresh
      simpa [stepImport, if_pos hq] using this
    · have hq' : 30 ≤ (pyStrip s.content).length := by omega
      rw [qualTexts_cons_qual s t hq'] at hnd hfresh ⊢
      have hnone := hfresh (pyStrip s.content) (List.mem_cons_self _ _)
      simp only [stepImport, if_neg hq, hnone]
      rw [List.map_cons, List.nodup_cons] at hnd
      have hfresh' : ∀ u ∈ qualTexts t,
          lookupKey (st.ledger ++
            [(content_hash (pyStrip s.content), ⟨s.header, now⟩)])
            (content_hash u) = none := by
        intro u hu
        have hne : content_hash u ≠ content_hash (pyStrip s.content) := by
          intro heq
          exact hnd.1 (heq ▸ List.mem_map_of_mem content_hash hu)
        rw [lookupKey_append_none _ _ _
          (hfresh u (List.mem_cons_of_mem _ hu)), lookupKey,
          if_neg (fun h => hne h.symm)]
        rfl
      have := ih
        { ledger := st.ledger ++
            [(content_hash (pyStrip s.content), ⟨s.header, now⟩)]
          stored := st.stored ++
            [mkStoredRecord s.header (pyStrip s.content) src now]
          newCount := st.newCount + 1
          skippedCount := st.skippedCount } hnd.2 hfresh'
      simp at this ⊢
      omega

/-- C9 (amended): with no sync-state path, the ledger is never written back
(and none is read: the pass starts from the empty ledger), so each run is a
fresh import and behaves identically on every repetition; whenever the
qualifying sections of the document have pairwise distinct Content
Identities, every qualifying section is stored anew and skippedCount is 0;
within-document duplicate sections, however, are skipped, not re-stored. -/
theorem import_without_ledger (doc src now : String)
    (hnd : ((qualTexts (parse_sections doc)).map content_hash).Nodup) :
    sync_from_markdown doc .noPath src now =
      .ok (runImport doc false [] src now) ∧
    (runImport doc false [] src now).writtenLedger = none ∧
    (runImport doc false [] src now).stats.new = qualifyingCount doc ∧
    (runImport doc false [] src now).stats.skipped = 0 ∧
    (runImport doc false [] src now).stored.length = qualifyingCount doc := by
  obtain ⟨h1, h2, h3⟩ := foldl_fresh src now (parse_sections doc)
    ⟨[], [], 0, 0⟩ hnd (fun t _ => rfl)
  refine ⟨rfl, rfl, ?_, ?_, ?_⟩
  · simpa [runImport, qualifyingCount] using h1
  · simpa [runImport] using h2
  · simpa [runImport, qualifyingCount] using h3

set_option maxRecDepth 40000 in
/-- C9 counterexample: a document with two identical qualifying sections
has its second occurrence skipped even with no state path, so skippedCount
is not 0 and not every qualifying section stores a record. -/
theorem import_without_ledger_cex :
    sync_from_markdown docDup .noPath "m" "t" =
      .ok (runImport docDup false [] "m" "t") ∧
    (runImport docDup false [] "m" "t").stats.skipped = 1 ∧
    (runImport docDup false [] "m" "t").stored.length = 1 ∧
    qualifyingCount docDup = 2 := by
  refine ⟨rfl, ?_, ?_, ?_⟩ <;> decide

/-! ## Lemmas about the export dedup -/

theorem exportDedup_sublist (seen : List String) (ms : List Mem) :
    ((exportDedup seen ms).2).Sublist ms := by
  induction ms generalizing seen with
  | nil => exact List.Sublist.refl []
  | cons m t ih =>
    rw [exportDedup]
    split
    · exact (ih seen).cons m
    · exact (ih (seen ++ [content_hash m.content])).cons₂ m

theorem exportDedup_unseen (seen : List String) (ms : List Mem) :
    ∀ m ∈ (exportDedup seen ms).2, content_hash m.content ∉ seen := by
  induction ms generalizing seen with
  | nil => intro m hm; exact absurd hm (List.not_mem_nil m)
  | cons x t ih =>
    rw [exportDedup]
    split
    · exact ih seen
    case isFalse hnew =>
      intro m hm
      simp only at hm
      rcases List.mem_cons.mp hm with rfl | hm'
      · exact hnew
      · have := ih (seen ++ [content_hash x.content]) m hm'
        intro hin
        exact this (List.mem_append_left _ hin)

theorem exportDedup_seen_grows (seen : List String) (ms : List Mem) :
    ∀ s ∈ seen, s ∈ (exportDedup seen ms).1 := by
  induction ms generalizing seen with
  | nil => intro s hs; exact hs
  | cons x t ih =>
    rw [exportDedup]
    split
    · exact ih seen
    · intro s hs
      exact ih (seen ++ [content_hash x.content]) s (List.mem_append_left _ hs)

theorem exportDedup_covers (seen : List String) (ms : List Mem) :
    ∀ m ∈ ms, content_hash m.content ∈ (exportDedup seen ms).1 := by
  induction ms generalizing seen with
  | nil => intro m hm; exact absurd hm (List.not_mem_nil m)
  | cons x t ih =>
    intro m hm
    rw [exportDedup]
    rcases List.mem_cons.mp hm with rfl | hm'
    · split
      case isTrue hseen => exact exportDedup_seen_grows seen t _ hseen
      case isFalse hnew =>
        exact exportDedup_seen_grows _ t _
          (List.mem_append_right _ (List.mem_singleton.mpr rfl))
    · split
      · exact ih seen m hm'
      · exact ih (seen ++ [content_hash x.content]) m hm'

theorem exportDedup_hashes_nodup (seen : List String) (ms : List Mem) :
    (((exportDedup seen ms).2).map fun m => content_hash m.content).Nodup := by
  induction ms generalizing seen with
  | nil => exact List.nodup_nil
  | cons x t ih =>
    rw [exportDedup]
    split
    · exact ih seen
    case isFalse hnew =>
      simp only [List.map_cons, List.nodup_cons]
      refine ⟨?_, ih (seen ++ [content_hash x.content])⟩
      intro hmem
      rcases List.mem_map.mp hmem with ⟨m, hm, heq⟩
      have := exportDedup_unseen (seen ++ [content_hash x.content]) t m hm
      exact this (heq ▸ List.mem_append_right _ (List.mem_singleton.mpr rfl))

theorem exportDedup_first_occurrence (seen : List String) (l₁ : List Mem)
    (m : Mem) (l₂ : List Mem) (hseen : content_hash m.content ∉ seen)
    (hfirst : ∀ t ∈ l₁, content_hash t.content ≠ content_hash m.content) :
    m ∈ (exportDedup seen (l₁ ++ m :: l₂)).2 := by
  induction l₁ generalizing seen with
  | nil =>
    rw [List.nil_append, exportDedup, if_neg hseen]
    exact List.mem_cons_self m _
  | cons x t ih =>
    rw [List.cons_append, exportDedup]
    split
    · exact ih seen hseen fun u hu => hfirst u (List.mem_cons_of_mem x hu)
    · have hm' : content_hash m.content ∉ seen ++ [content_hash x.content] := by
        intro hin
        rcases List.mem_append.mp hin with h | h
        · exact hseen h
        · exact hfirst x (List.mem_cons_self x t)
            (List.mem_singleton.mp h).symm
      exact List.mem_cons_of_mem x
        (ih (seen ++ [content_hash x.content]) hm'
          fun u hu => hfirst u (List.mem_cons_of_mem x hu))

theorem exportDedup_seen_from (seen : List String) (ms : List Mem) :
    ∀ h ∈ (exportDedup seen ms).1,
      h ∈ seen ∨ ∃ x ∈ ms, content_hash x.content = h := by
  induction ms generalizing seen with
  | nil => intro h hh; exact Or.inl hh
  | cons x t ih =>
    intro h hh
    rw [exportDedup] at hh
    split at hh
    · rcases ih seen h hh with hs | ⟨y, hy, hyy⟩
      · exact Or.inl hs
      · exact Or.inr ⟨y, List.mem_cons_of_mem x hy, hyy⟩
    · simp only at hh
      rcases ih (seen ++ [content_hash x.content]) h hh with hs | ⟨y, hy, hyy⟩
      · rcases List.mem_append.mp hs with h1 | h1
        · exact Or.inl h1
        · exact Or.inr ⟨x, List.mem_cons_self x t, (List.mem_singleton.mp h1).symm⟩
      · exact Or.inr ⟨y, List.mem_cons_of_mem x hy, hyy⟩

/-- C7: in an exported document the merged record sets are deduplicated by
Content Identity: the kept semantic and episodic records have pairwise
distinct content hashes across both groups (so any two duplicates, within
or across the sets, appear at most once), each output is a subsequence of
its source set, first occurrence wins in the semantic set (a semantic
record whose hash no earlier semantic record carries is always kept), no
kept episodic record shares a hash with any semantic record (the semantic
set, processed first, takes precedence), and first occurrence wins in the
episodic set as well (an episodic-typed record whose hash no semantic
record and no earlier episodic-typed record carries is always kept). -/
theorem export_dedup_first_wins (semantic episodic : List Mem) :
    ((((export_organize semantic episodic).1 ++
        (export_organize semantic episodic).2).map
      fun m => content_hash m.content).Nodup) ∧
    ((export_organize semantic episodic).1).Sublist semantic ∧
    ((export_organize semantic episodic).2).Sublist
      (episodic.filter fun m => m.memory_type == "episodic") ∧
    (∀ e ∈ (export_organize semantic episodic).2, ∀ s ∈ semantic,
      content_hash e.content ≠ content_hash s.content) ∧
    (∀ l₁ m l₂, semantic = l₁ ++ m :: l₂ →
      (∀ t ∈ l₁, content_hash t.content ≠ content_hash m.content) →
      m ∈ (export_organize semantic episodic).1) ∧
    (∀ l₁ m l₂,
      episodic.filter (fun x => x.memory_type == "episodic") = l₁ ++ m :: l₂ →
      (∀ s ∈ semantic, content_hash s.content ≠ content_hash m.content) →
      (∀ t ∈ l₁, content_hash t.content ≠ content_hash m.content) →
      m ∈ (export_organize semantic episodic).2) := by
  have hprec : ∀ e ∈ (export_organize semantic episodic).2, ∀ s ∈ semantic,
      content_hash e.content ≠ content_hash s.content := by
    intro e he s hs heq
    have hunseen := exportDedup_unseen (exportDedup [] semantic).1
      (episodic.filter fun m => m.memory_type == "episodic") e he
    have hcov := exportDedup_covers [] semantic s hs
    exact hunseen (heq ▸ hcov)
  refine ⟨?_, ?_, ?_, hprec, ?_, ?_⟩
  · rw [List.map_append, List.nodup_append]
    refine ⟨exportDedup_hashes_nodup [] semantic,
      exportDedup_hashes_nodup _ _, ?_⟩
    intro a ha hb
    rcases List.mem_map.mp ha with ⟨s, hs, rfl⟩
    rcases List.mem_map.mp hb with ⟨e, he, heq⟩
    exact hprec e he s ((exportDedup_sublist [] semantic).subset hs) heq
  · exact exportDedup_sublist [] semantic
  · exact exportDedup_sublist _ _
  · intro l₁ m l₂ hsem hfirst
    subst hsem
    exact exportDedup_first_occurrence [] l₁ m l₂ (List.not_mem_nil _) hfirst
  · intro l₁ m l₂ hepi hsem hfirst
    have hnotseen : content_hash m.content ∉ (exportDedup [] semantic).1 := by
      intro hin
      rcases exportDedup_seen_from [] semantic _ hin with hnil | ⟨s, hs, heq⟩
      · exact List.not_mem_nil _ hnil
      · exact hsem s hs heq
    show m ∈ (exportDedup (exportDedup [] semantic).1
      (episodic.filter fun x => x.memory_type == "episodic")).2
    rw [hepi]
    exact exportDedup_first_occurrence (exportDedup [] semantic).1 l₁ m l₂
      hnotseen hfirst

/-! ## Witnesses -/

/-- C1 witness: the idempotence theorem at the concrete document `docA`,
first run started from the empty ledger. -/
theorem import_idempotent_witness :
    (runImport docA true
      ((runImport docA true [] "m" "t1").writtenLedger.getD []) "m" "t2").stats.new
        = 0 ∧
    (runImport docA true
      ((runImport docA true [] "m" "t1").writtenLedger.getD []) "m" "t2").stats.skipped
        = qualifyingCount docA ∧
    (runImport docA true
      ((runImport docA true [] "m" "t1").writtenLedger.getD []) "m" "t2").stored
        = [] ∧
    (runImport docA true
      ((runImport docA true [] "m" "t1").writtenLedger.getD []) "m" "t2").writtenLedger
        = (runImport docA true [] "m" "t1").writtenLedger :=
  import_idempotent docA [] "m" "t1" "t2"
    (runImport docA true [] "m" "t1")
    (runImport docA true
      ((runImport docA true [] "m" "t1").writtenLedger.getD []) "m" "t2")
    rfl rfl

/-- C3 witness: the ranking theorem at two concrete candidates arriving in
descending dense order, with the default weights and limit 1. -/
theorem hybrid_search_ranking_witness :
    (∀ s ∈ hybrid_search "dark mode" candsA 1 (7 / 10) (3 / 10),
      s.combined_score = 7 / 10 * s.dense_score + 3 / 10 * s.keyword_score) ∧
    (hybrid_search "dark mode" candsA 1 (7 / 10) (3 / 10)).length =
      min 1 candsA.length ∧
    (hybrid_search "dark mode" candsA 1 (7 / 10) (3 / 10)).Pairwise
      (fun a b => b.combined_score ≤ a.combined_score) ∧
    (hybrid_search "dark mode" candsA 1 (7 / 10) (3 / 10)).Pairwise
      (fun a b => b.combined_score < a.combined_score ∨
        (a.combined_score = b.combined_score ∧ b.dense_score ≤ a.dense_score)) ∧
    (∀ q : ℚ,
      List.Sublist
        ((hybrid_search "dark mode" candsA 1 (7 / 10) (3 / 10)).filter
          fun s => decide (s.combined_score = q))
        ((candsA.map
            (score_candidate (extract_keywords "dark mode") (7 / 10) (3 / 10))).filter
          fun s => decide (s.combined_score = q))) ∧
    (candsA.length ≤ 1 →
      (hybrid_search "dark mode" candsA 1 (7 / 10) (3 / 10)).Perm
        (candsA.map
          (score_candidate (extract_keywords "dark mode") (7 / 10) (3 / 10)))) :=
  hybrid_search_ranking "dark mode" candsA 1 (7 / 10) (3 / 10)
    (by
      simp only [candsA]
      refine List.pairwise_cons.mpr ⟨?_, List.pairwise_singleton _ _⟩
      intro b hb
      rw [List.mem_singleton] at hb
      subst hb
      show (6 : ℚ) / 10 ≤ 9 / 10
      norm_num)

set_option maxRecDepth 40000 in
/-- C9 witness: the no-state-path theorem at the concrete document `docA`,
whose two qualifying sections have distinct Content Identities. -/
theorem import_without_ledger_witness :
    sync_from_markdown docA .noPath "m" "t" =
      .ok (runImport docA false [] "m" "t") ∧
    (runImport docA false [] "m" "t").writtenLedger = none ∧
    (runImport docA false [] "m" "t").stats.new = qualifyingCount docA ∧
    (runImport docA false [] "m" "t").stats.skipped = 0 ∧
    (runImport docA false [] "m" "t").stored.length = qualifyingCount docA :=
  import_without_ledger docA "m" "t" (by decide)
